import Mathlib

/-!
Shallow embedding of `chainercv/evaluations/eval_detection_voc.py`.

Numeric values (box coordinates, confidence scores, IoU ratios, precision,
recall, AP) are embedded as rationals `ℚ`, i.e. the numpy double arithmetic
of the source is modelled exactly (exact real arithmetic).  Class labels are
embedded as `ℤ`.  Per-image numpy arrays become Lean lists.
-/

namespace VocEval

/-- A bounding box, source layout `[x_min, y_min, x_max, y_max]`
(`bb[:2] = (x_min, y_min)`, `bb[2:] = (x_max, y_max)`). -/
structure BBox where
  x_min : ℚ
  y_min : ℚ
  x_max : ℚ
  y_max : ℚ
deriving DecidableEq, Repr

/-- `np.prod(bbox[2:] - bbox[:2] + 1.)`: the VOC (+1, inclusive-pixel) box
area of lines 181 and 188. -/
def bbox_area (b : BBox) : ℚ :=
  (b.x_max - b.x_min + 1) * (b.y_max - b.y_min + 1)

/-- Lines 191-194 of the source, for one detection box `bb` and one
ground-truth box `g`:
`lt = np.maximum(gt_bb[:, :2], bb[:2])`, `rb = np.minimum(gt_bb[:, 2:], bb[2:])`,
`area = np.prod(np.maximum(rb - lt + 1, 0))`,
`iou = area / (bbox_area + gt_bb_area - area)`.
(In ℚ the degenerate division `q / 0` yields `0`; the source would emit a
numpy warning there, a case no claim touches.) -/
def iou (bb g : BBox) : ℚ :=
  let ltx := max g.x_min bb.x_min
  let lty := max g.y_min bb.y_min
  let rbx := min g.x_max bb.x_max
  let rby := min g.y_max bb.y_max
  let area := max (rbx - ltx + 1) 0 * max (rby - lty + 1) 0
  area / (bbox_area bb + bbox_area g - area)

/-- Helper for `argmaxList`: scans the remainder of the array keeping the
current maximum `m`, its index `j`, and the position `k` of the next element;
the maximum is replaced only on a strict increase, so the first occurrence of
the maximum wins, exactly as `np.argmax`. -/
def argmaxAux : ℚ → ℕ → ℕ → List ℚ → ℚ × ℕ
  | m, j, _, [] => (m, j)
  | m, j, k, a :: t => if m < a then argmaxAux a k (k + 1) t else argmaxAux m j (k + 1) t

/-- `(np.max(iou), np.argmax(iou))` of lines 195-196; `none` for an empty
array (the `gt_bb.size > 0` guard of line 190 failing, in which case the
source leaves `ioumax = -inf`). -/
def argmaxList : List ℚ → Option (ℚ × ℕ)
  | [] => none
  | a :: t => some (argmaxAux a 0 1 t)

/-- One iteration of the detection loop, lines 182-207: given the per-image
ground-truth boxes `gtb`, difficulty flags `gtd`, threshold `min_iou`, the
claimed-state `selec`, and the current detection (image index `idx`, box
`bb`); returns the new claimed-state and the `(tp, fp)` indicator pair for
this rank. -/
def matchOne (gtb : List (List BBox)) (gtd : List (List Bool)) (min_iou : ℚ)
    (selec : List (List Bool)) (idx : ℕ) (bb : BBox) :
    List (List Bool) × Bool × Bool :=
  match argmaxList ((gtb.getD idx []).map (fun g => iou bb g)) with
  | none => (selec, false, true)
  | some (ioumax, jmax) =>
    if min_iou < ioumax then
      if ((gtd.getD idx []).getD jmax false) = false then
        if ((selec.getD idx []).getD jmax false) = false then
          (selec.set idx ((selec.getD idx []).set jmax true), true, false)
        else (selec, false, true)
      else (selec, false, false)
    else (selec, false, true)

/-- The whole detection loop (lines 182-207) over the score-sorted detection
sequence; returns the final claimed-state and the `tp` and `fp` indicator
sequences in processing order. -/
def runMatch (gtb : List (List BBox)) (gtd : List (List Bool)) (min_iou : ℚ) :
    List (List Bool) → List (ℕ × ℚ × BBox) → List (List Bool) × List Bool × List Bool
  | selec, [] => (selec, [], [])
  | selec, (idx, _, bb) :: rest =>
    let r := matchOne gtb gtd min_iou selec idx bb
    let rr := runMatch gtb gtd min_iou r.1 rest
    (rr.1, r.2.1 :: rr.2.1, r.2.2 :: rr.2.2)

/-- `selec[i] = np.zeros(n_gt_bbox, dtype=np.bool)` of lines 150-153. -/
def initSelec (gtb : List (List BBox)) : List (List Bool) :=
  gtb.map (fun g => List.replicate g.length false)

/-- Number of claimed (`selec`) entries, across all images. -/
def claimedCount (selec : List (List Bool)) : ℕ :=
  (selec.map (fun row => row.countP id)).sum

/-- `npos += np.sum(np.logical_not(gt_difficults[i]))` of line 154: the
total number of non-difficult ground-truth boxes.  (The source indexes
`gt_difficults[i]` for `i in range(len(gt_bboxes))`; the two lists are
parallel in every call.) -/
def npos (gtd : List (List Bool)) : ℕ :=
  (gtd.map (fun row => row.countP (fun d => !d))).sum

/-- Lines 161-167: flatten the per-image detections into one sequence of
`(image index, score, box)` triples (`index`, `conf`, `bbox`). -/
def detsOf (bboxes : List (List BBox)) (scores : List (List ℚ)) :
    List (ℕ × ℚ × BBox) :=
  ((scores.zip bboxes).enum.map
    (fun p => (p.2.1.zip p.2.2).map (fun sb => (p.1, sb.1, sb.2)))).flatten

/-- Lines 172-175: `si = np.argsort(-conf)` then reorder, i.e. sort the
detections by descending score.  (numpy's default `kind='quicksort'` leaves
the relative order of equal scores unspecified; a stable descending sort is
used as the deterministic model.) -/
def sortDets (dets : List (ℕ × ℚ × BBox)) : List (ℕ × ℚ × BBox) :=
  dets.mergeSort (fun a b => b.2.1 ≤ a.2.1)

/-- `np.cumsum` with an explicit running accumulator. -/
def cumsumFrom (acc : ℚ) : List ℚ → List ℚ
  | [] => []
  | a :: t => (acc + a) :: cumsumFrom (acc + a) t

/-- `np.cumsum` of lines 210-211. -/
def cumsum (l : List ℚ) : List ℚ := cumsumFrom 0 l

/-- The float 0/1 entries of the `tp`/`fp` arrays (lines 178-179, 201-207). -/
def toQ01 (b : Bool) : ℚ := if b then 1 else 0

/-- `np.finfo(np.float64).eps = 2 ** (-52)` of line 213. -/
def eps : ℚ := 1 / 2 ^ 52

/-- `rec = tp / float(npos)` of line 212 (with `tp = np.cumsum(tp)`). -/
def recOf (gtd : List (List Bool)) (tps : List Bool) : List ℚ :=
  (cumsum (tps.map toQ01)).map (fun t => t / (npos gtd : ℚ))

/-- `prec = tp / np.maximum(fp + tp, np.finfo(np.float64).eps)` of line 213
(with `tp`, `fp` the cumulative sums). -/
def precOf (tps fps : List Bool) : List ℚ :=
  (cumsum (tps.map toQ01)).zipWith (fun t f => t / max (f + t) eps)
    (cumsum (fps.map toQ01))

/-- `_pred_and_rec_cls` (lines 139-214): per-class recall and precision. -/
def pred_and_rec_cls (bboxes : List (List BBox)) (scores : List (List ℚ))
    (gtb : List (List BBox)) (gtd : List (List Bool)) (min_iou : ℚ) :
    List ℚ × List ℚ :=
  -- lines 169-170: `if npos == 0 or len(conf) == 0: return zeros, zeros`
  if npos gtd = 0 ∨ scores.flatten.length = 0 then
    (List.replicate scores.flatten.length 0, List.replicate scores.flatten.length 0)
  else
    (recOf gtd (runMatch gtb gtd min_iou (initSelec gtb)
        (sortDets (detsOf bboxes scores))).2.1,
     precOf (runMatch gtb gtd min_iou (initSelec gtb)
        (sortDets (detsOf bboxes scores))).2.1
       (runMatch gtb gtd min_iou (initSelec gtb)
        (sortDets (detsOf bboxes scores))).2.2)

/-- Maximum of the nonempty list `a :: l`. -/
def listMax1 : ℚ → List ℚ → ℚ
  | a, [] => a
  | a, b :: t => max a (listMax1 b t)

/-- `np.max(prec[rec >= t])` of lines 222-225, with `p = 0` when the mask is
empty (`np.sum(rec >= t) == 0`). -/
def maskedMax (rec prec : List ℚ) (t : ℚ) : ℚ :=
  match ((rec.zip prec).filter (fun rp => t ≤ rp.1)).map Prod.snd with
  | [] => 0
  | a :: l => listMax1 a l

/-- `np.arange(0., 1.1, 0.1)` of line 221, in exact arithmetic: the eleven
thresholds 0, 0.1, ..., 1. -/
def thresholds07 : List ℚ :=
  [0, 1/10, 2/10, 3/10, 4/10, 5/10, 6/10, 7/10, 8/10, 9/10, 1]

/-- The right-to-left running maximum of lines 234-235: entry `i` of the
result is the maximum of entries `i..end` of the input. -/
def suffixMax : List ℚ → List ℚ
  | [] => []
  | a :: t =>
    match suffixMax t with
    | [] => [a]
    | b :: bt => max a b :: b :: bt

/-- Lines 239-242: sum, over adjacent positions `k, k+1` of the padded
recall `rs` where the recall changes, of `(rs[k+1] - rs[k]) * es[k+1]`
(with `es` the precision envelope). -/
def sumDeltas : List ℚ → List ℚ → ℚ
  | r0 :: r1 :: rs, _ :: e1 :: es =>
    (if r1 ≠ r0 then (r1 - r0) * e1 else 0) + sumDeltas (r1 :: rs) (e1 :: es)
  | _, _ => 0

/-- Lines 227-242, the "correct AP calculation" branch of `_voc_ap`. -/
def apEnvelope (rec prec : List ℚ) : ℚ :=
  sumDeltas (0 :: rec ++ [1]) (suffixMax (0 :: prec ++ [0]))

/-- `_voc_ap` (lines 217-243). -/
def voc_ap (rec prec : List ℚ) (use_07_metric : Bool) : ℚ :=
  if use_07_metric then
    thresholds07.foldl (fun ap t => ap + maskedMax rec prec t / 11) 0
  else
    apEnvelope rec prec

/-- The two exceptions `eval_detection_voc` can raise: the explicit
`ValueError('Length of list inputs need to be same')` of line 73, and the
`ValueError('need at least one array to concatenate')` that
`np.concatenate(labels)` raises on line 76 when the corpus has zero images. -/
inductive EvalError where
  | lengthMismatch : EvalError
  | emptyConcat : EvalError
deriving DecidableEq, Repr

/-- The per-class entry of the result dictionary (lines 130-133); the field
`recalls` models the source's `'recall'` key (`recall` itself is reserved). -/
structure ClassResult where
  recalls : List ℚ
  precision : List ℚ
  ap : ℚ
deriving DecidableEq, Repr

/-- The result dictionary: per-class results keyed by label, plus the
`'map'` entry (lines 121-136). -/
structure EvalResult where
  perClass : List (ℤ × ClassResult)
  map : ℚ
deriving DecidableEq, Repr

/-- The `.astype(np.int32)` of line 77: two's-complement wraparound of an
integer into `[-2^31, 2^31)`. -/
def toInt32 (z : ℤ) : ℤ := (z + 2 ^ 31) % 2 ^ 32 - 2 ^ 31

/-- Lines 75-77: `np.union1d(np.unique(np.concatenate(labels)),
np.unique(np.concatenate(gt_labels))).astype(np.int32)`; modelled as
deduplication of the concatenation followed by the int32 cast
(`np.union1d` additionally sorts, which affects neither membership nor the
mean of the per-label APs; the cast can re-introduce duplicates, and the
source's `for l in valid_label` loops traverse those duplicates too). -/
def validLabels (labels gt_labels : List (List ℤ)) : List ℤ :=
  ((labels.flatten ++ gt_labels.flatten).dedup).map toInt32

/-- Lines 85-95: the boxes of image rows whose parallel label equals `l`. -/
def selectBoxes (bboxes : List (List BBox)) (labels : List (List ℤ)) (l : ℤ) :
    List (List BBox) :=
  (labels.zip bboxes).map
    (fun p => ((p.1.zip p.2).filter (fun q => q.1 = l)).map Prod.snd)

/-- Lines 85-95: the scores of image rows whose parallel label equals `l`. -/
def selectScores (scores : List (List ℚ)) (labels : List (List ℤ)) (l : ℤ) :
    List (List ℚ) :=
  (labels.zip scores).map
    (fun p => ((p.1.zip p.2).filter (fun q => q.1 = l)).map Prod.snd)

/-- Lines 111-115: per-image difficulty rows; `gt_difficults is None` means
every ground-truth box is treated as not difficult. -/
def diffRows (gt_difficults : Option (List (List Bool)))
    (gt_bboxes : List (List BBox)) : List (List Bool) :=
  match gt_difficults with
  | some ds => ds
  | none => gt_bboxes.map (fun g => List.replicate g.length false)

/-- Lines 104-118: the difficulty flags of ground-truth rows whose parallel
label equals `l`. -/
def selectDiffs (drows : List (List Bool)) (gt_labels : List (List ℤ)) (l : ℤ) :
    List (List Bool) :=
  (gt_labels.zip drows).map
    (fun p => ((p.1.zip p.2).filter (fun q => q.1 = l)).map Prod.snd)

/-- `eval_detection_voc` (lines 7-136).  Fallible: the length check of
lines 71-73 raises `ValueError`, and with an empty corpus
`np.concatenate(labels)` on line 76 raises `ValueError` as well. -/
def eval_detection_voc (bboxes : List (List BBox)) (labels : List (List ℤ))
    (scores : List (List ℚ)) (gt_bboxes : List (List BBox))
    (gt_labels : List (List ℤ)) (gt_difficults : Option (List (List Bool)))
    (min_iou : ℚ) (use_07_metric : Bool) : Except EvalError EvalResult :=
  if ¬(bboxes.length = labels.length ∧ labels.length = scores.length ∧
      scores.length = gt_bboxes.length ∧ gt_bboxes.length = gt_labels.length) then
    .error .lengthMismatch
  else if labels.isEmpty then
    .error .emptyConcat
  else
    let perClass := (validLabels labels gt_labels).map (fun l =>
      let rp := pred_and_rec_cls
        (selectBoxes bboxes labels l)
        (selectScores scores labels l)
        (selectBoxes gt_bboxes gt_labels l)
        (selectDiffs (diffRows gt_difficults gt_bboxes) gt_labels l)
        min_iou
      (l, { recalls := rp.1, precision := rp.2,
            ap := voc_ap rp.1 rp.2 use_07_metric }))
    .ok { perClass := perClass,
          map := ((perClass.map (fun c => c.2.ap)).sum) / (perClass.length : ℚ) }

/-! ### Helper lemmas about the list maximum -/

theorem le_listMax1 (a : ℚ) (l : List ℚ) : a ≤ listMax1 a l := by
  induction l generalizing a with
  | nil => simp [listMax1]
  | cons b t ih => simp [listMax1]

theorem listMax1_le (a : ℚ) (l : List ℚ) (c : ℚ)
    (h : ∀ x ∈ a :: l, x ≤ c) : listMax1 a l ≤ c := by
  induction l generalizing a with
  | nil => exact h a (by simp)
  | cons b t ih =>
    simp only [listMax1, max_le_iff]
    refine ⟨h a (by simp), ih b ?_⟩
    intro x hx
    exact h x (List.mem_cons_of_mem a hx)

theorem listMax1_mem (a : ℚ) (l : List ℚ) : listMax1 a l ∈ a :: l := by
  induction l generalizing a with
  | nil => simp [listMax1]
  | cons b t ih =>
    simp only [listMax1]
    rcases max_choice a (listMax1 b t) with hm | hm
    · rw [hm]
      exact List.mem_cons_self a (b :: t)
    · rw [hm]
      exact List.mem_cons_of_mem a (ih b)

/-! ### Helper lemmas about `maskedMax` -/

theorem mem_maskedMax_src (rec prec : List ℚ) (t : ℚ)
    (h : ((rec.zip prec).filter (fun rp => t ≤ rp.1)).map Prod.snd ≠ []) :
    maskedMax rec prec t ∈ prec := by
  unfold maskedMax
  cases hm : ((rec.zip prec).filter (fun rp => t ≤ rp.1)).map Prod.snd with
  | nil => exact absurd hm h
  | cons a l =>
    have hmem : listMax1 a l ∈ a :: l := listMax1_mem a l
    rw [← hm] at hmem
    obtain ⟨⟨r, p⟩, hp, rfl⟩ := List.mem_map.mp hmem
    exact (List.of_mem_zip (List.mem_of_mem_filter hp)).2

theorem maskedMax_nonneg (rec prec : List ℚ) (t : ℚ)
    (h : ∀ x ∈ prec, 0 ≤ x) : 0 ≤ maskedMax rec prec t := by
  by_cases hm : ((rec.zip prec).filter (fun rp => t ≤ rp.1)).map Prod.snd = []
  · unfold maskedMax
    rw [hm]
  · exact h _ (mem_maskedMax_src rec prec t hm)

theorem maskedMax_le_one (rec prec : List ℚ) (t : ℚ)
    (h : ∀ x ∈ prec, x ≤ 1) : maskedMax rec prec t ≤ 1 := by
  by_cases hm : ((rec.zip prec).filter (fun rp => t ≤ rp.1)).map Prod.snd = []
  · unfold maskedMax
    rw [hm]
    norm_num
  · exact h _ (mem_maskedMax_src rec prec t hm)

theorem maskedMax_eq_zero (rec prec : List ℚ) (t : ℚ)
    (h : ∀ x ∈ prec, x = 0) : maskedMax rec prec t = 0 := by
  by_cases hm : ((rec.zip prec).filter (fun rp => t ≤ rp.1)).map Prod.snd = []
  · unfold maskedMax
    rw [hm]
  · exact h _ (mem_maskedMax_src rec prec t hm)

/-! ### Helper lemmas about `suffixMax` -/

theorem suffixMax_cons_of_nil (a : ℚ) (t : List ℚ) (h : suffixMax t = []) :
    suffixMax (a :: t) = [a] := by
  unfold suffixMax
  rw [h]

theorem suffixMax_cons_of_cons (a b : ℚ) (t bt : List ℚ)
    (h : suffixMax t = b :: bt) :
    suffixMax (a :: t) = max a b :: b :: bt := by
  unfold suffixMax
  rw [h]

theorem suffixMax_length (l : List ℚ) : (suffixMax l).length = l.length := by
  induction l with
  | nil => rfl
  | cons a t ih =>
    cases h : suffixMax t with
    | nil =>
      rw [suffixMax_cons_of_nil a t h]
      rw [h] at ih
      simp only [List.length_nil] at ih
      simp only [List.length_cons, List.length_nil]
      omega
    | cons b bt =>
      rw [suffixMax_cons_of_cons a b t bt h]
      rw [h] at ih
      simp only [List.length_cons] at ih ⊢
      omega

theorem mem_suffixMax (l : List ℚ) : ∀ x ∈ suffixMax l, x ∈ l := by
  induction l with
  | nil => simp [suffixMax]
  | cons a t ih =>
    intro x hx
    cases h : suffixMax t with
    | nil =>
      rw [suffixMax_cons_of_nil a t h] at hx
      rw [List.mem_singleton.mp hx]
      exact List.mem_cons_self a t
    | cons b bt =>
      rw [suffixMax_cons_of_cons a b t bt h] at hx
      rcases List.mem_cons.mp hx with rfl | hx2
      · rcases max_choice a b with hm | hm
        · rw [hm]
          exact List.mem_cons_self a t
        · rw [hm]
          refine List.mem_cons_of_mem a (ih b ?_)
          rw [h]
          exact List.mem_cons_self b bt
      · refine List.mem_cons_of_mem a (ih x ?_)
        rw [h]
        exact hx2

/-! ### Helper lemmas about `sumDeltas` -/

theorem sumDeltas_nil : ∀ es : List ℚ, sumDeltas [] es = 0
  | [] => rfl
  | [_] => rfl
  | _ :: _ :: _ => rfl

theorem sumDeltas_single : ∀ (r : ℚ) (es : List ℚ), sumDeltas [r] es = 0
  | _, [] => rfl
  | _, [_] => rfl
  | _, _ :: _ :: _ => rfl

theorem sumDeltas_nil_right : ∀ rs : List ℚ, sumDeltas rs [] = 0
  | [] => rfl
  | [_] => rfl
  | _ :: _ :: _ => rfl

theorem sumDeltas_single_right : ∀ (rs : List ℚ) (e : ℚ), sumDeltas rs [e] = 0
  | [], _ => rfl
  | [_], _ => rfl
  | _ :: _ :: _, _ => rfl

theorem sumDeltas_cons₂ (r0 r1 e0 e1 : ℚ) (rs es : List ℚ) :
    sumDeltas (r0 :: r1 :: rs) (e0 :: e1 :: es) =
      (if r1 ≠ r0 then (r1 - r0) * e1 else 0) + sumDeltas (r1 :: rs) (e1 :: es) :=
  rfl

theorem sumDeltas_of_zero (rs es : List ℚ) (h : ∀ x ∈ es, x = 0) :
    sumDeltas rs es = 0 := by
  induction rs generalizing es with
  | nil => exact sumDeltas_nil es
  | cons r0 rt ih =>
    cases rt with
    | nil => exact sumDeltas_single r0 es
    | cons r1 rs' =>
      cases es with
      | nil => exact sumDeltas_nil_right _
      | cons e0 et =>
        cases et with
        | nil => exact sumDeltas_single_right _ e0
        | cons e1 es' =>
          rw [sumDeltas_cons₂]
          have h1 : e1 = 0 := h e1 (by simp)
          have h2 : sumDeltas (r1 :: rs') (e1 :: es') = 0 :=
            ih (e1 :: es') (fun x hx => h x (List.mem_cons_of_mem e0 hx))
          rw [h2, h1]
          simp

theorem sumDeltas_nonneg (rs es : List ℚ) (hchain : List.Chain' (· ≤ ·) rs)
    (hes : ∀ x ∈ es, 0 ≤ x) : 0 ≤ sumDeltas rs es := by
  induction rs generalizing es with
  | nil => rw [sumDeltas_nil]
  | cons r0 rt ih =>
    cases rt with
    | nil => rw [sumDeltas_single]
    | cons r1 rs' =>
      cases es with
      | nil => rw [sumDeltas_nil_right]
      | cons e0 et =>
        cases et with
        | nil => rw [sumDeltas_single_right]
        | cons e1 es' =>
          rw [sumDeltas_cons₂]
          have h01 : r0 ≤ r1 := (List.chain'_cons.mp hchain).1
          have he1 : 0 ≤ e1 := hes e1 (by simp)
          have hrest : 0 ≤ sumDeltas (r1 :: rs') (e1 :: es') :=
            ih (e1 :: es') (List.chain'_cons.mp hchain).2
              (fun x hx => hes x (List.mem_cons_of_mem e0 hx))
          have hterm : 0 ≤ (if r1 ≠ r0 then (r1 - r0) * e1 else 0) := by
            by_cases hne : r1 ≠ r0
            · rw [if_pos hne]
              exact mul_nonneg (by linarith) he1
            · rw [if_neg hne]
          linarith

theorem sumDeltas_le (rs es : List ℚ) (hchain : List.Chain' (· ≤ ·) rs)
    (hlen : rs.length = es.length) (hes : ∀ x ∈ es, x ≤ 1) :
    sumDeltas rs es ≤ rs.getLast?.getD 0 - rs.head?.getD 0 := by
  induction rs generalizing es with
  | nil => rw [sumDeltas_nil]; simp
  | cons r0 rt ih =>
    cases rt with
    | nil => rw [sumDeltas_single]; simp
    | cons r1 rs' =>
      cases es with
      | nil => simp at hlen
      | cons e0 et =>
        cases et with
        | nil => simp at hlen
        | cons e1 es' =>
          rw [sumDeltas_cons₂]
          have h01 : r0 ≤ r1 := (List.chain'_cons.mp hchain).1
          have he1 : e1 ≤ 1 := hes e1 (by simp)
          have hrest : sumDeltas (r1 :: rs') (e1 :: es') ≤
              (r1 :: rs').getLast?.getD 0 - (r1 :: rs').head?.getD 0 :=
            ih (e1 :: es') (List.chain'_cons.mp hchain).2 (by simpa using hlen)
              (fun x hx => hes x (List.mem_cons_of_mem e0 hx))
          have hterm : (if r1 ≠ r0 then (r1 - r0) * e1 else 0) ≤ r1 - r0 := by
            by_cases hne : r1 ≠ r0
            · rw [if_pos hne]
              nlinarith
            · rw [if_neg hne]
              push_neg at hne
              simp [hne]
          have hlast : (r0 :: r1 :: rs').getLast?.getD 0 =
              (r1 :: rs').getLast?.getD 0 := by
            rw [List.getLast?_cons_cons]
          rw [hlast]
          simp only [List.head?_cons, Option.getD_some] at hrest ⊢
          linarith

/-! ### Helper lemmas about `cumsumFrom` -/

theorem cumsumFrom_length (acc : ℚ) (l : List ℚ) :
    (cumsumFrom acc l).length = l.length := by
  induction l generalizing acc with
  | nil => rfl
  | cons a t ih => simp [cumsumFrom, ih]

theorem le_of_mem_cumsumFrom (acc : ℚ) (l : List ℚ) (h : ∀ x ∈ l, 0 ≤ x) :
    ∀ y ∈ cumsumFrom acc l, acc ≤ y := by
  induction l generalizing acc with
  | nil => simp [cumsumFrom]
  | cons a t ih =>
    intro y hy
    have ha : 0 ≤ a := h a (by simp)
    simp only [cumsumFrom] at hy
    rcases List.mem_cons.mp hy with rfl | hy2
    · linarith
    · have := ih (acc + a) (fun x hx => h x (List.mem_cons_of_mem a hx)) y hy2
      linarith

theorem chain'_cumsumFrom (acc : ℚ) (l : List ℚ) (h : ∀ x ∈ l, 0 ≤ x) :
    List.Chain' (· ≤ ·) (cumsumFrom acc l) := by
  induction l generalizing acc with
  | nil => simp [cumsumFrom]
  | cons a t ih =>
    simp only [cumsumFrom]
    rw [List.chain'_cons']
    constructor
    · intro y hy
      have hle := le_of_mem_cumsumFrom (acc + a) t
        (fun x hx => h x (List.mem_cons_of_mem a hx)) y (List.mem_of_mem_head? hy)
      have ha : 0 ≤ a := h a (by simp)
      linarith
    · exact ih (acc + a) (fun x hx => h x (List.mem_cons_of_mem a hx))

/-! ### Specification of `argmaxAux`/`argmaxList` (np.max and np.argmax) -/

theorem argmaxAux_cons (m : ℚ) (j k : ℕ) (a : ℚ) (t : List ℚ) :
    argmaxAux m j k (a :: t) =
      if m < a then argmaxAux a k (k + 1) t else argmaxAux m j (k + 1) t :=
  rfl

theorem argmaxAux_spec (t : List ℚ) : ∀ (m : ℚ) (j k : ℕ),
    m ≤ (argmaxAux m j k t).1 ∧
    (∀ i, i < t.length → t.getD i 0 ≤ (argmaxAux m j k t).1) ∧
    (((argmaxAux m j k t).2 = j ∧ (argmaxAux m j k t).1 = m) ∨
      (∃ i, i < t.length ∧ (argmaxAux m j k t).2 = k + i ∧
        t.getD i 0 = (argmaxAux m j k t).1 ∧ m < (argmaxAux m j k t).1 ∧
        ∀ i', i' < i → t.getD i' 0 < (argmaxAux m j k t).1)) := by
  induction t with
  | nil =>
    intro m j k
    refine ⟨le_rfl, by simp, Or.inl ⟨rfl, rfl⟩⟩
  | cons a t ih =>
    intro m j k
    by_cases hma : m < a
    · have heq : argmaxAux m j k (a :: t) = argmaxAux a k (k + 1) t := by
        rw [argmaxAux_cons, if_pos hma]
      rw [heq]
      obtain ⟨h1, h2, h3⟩ := ih a k (k + 1)
      refine ⟨le_of_lt (lt_of_lt_of_le hma h1), ?_, ?_⟩
      · intro i hi
        cases i with
        | zero => simpa using h1
        | succ i' =>
          rw [List.getD_cons_succ]
          exact h2 i' (by simpa using hi)
      · rcases h3 with ⟨hj, hm⟩ | ⟨i, hi, hji, hval, hlt, hfirst⟩
        · refine Or.inr ⟨0, by simp, by omega, ?_, ?_, by omega⟩
          · simpa using hm.symm
          · rw [hm]
            exact hma
        · refine Or.inr ⟨i + 1, by simpa using hi, by omega, ?_, ?_, ?_⟩
          · simpa using hval
          · exact lt_trans hma hlt
          · intro i' hi'
            cases i' with
            | zero => simpa using hlt
            | succ i'' =>
              rw [List.getD_cons_succ]
              exact hfirst i'' (by omega)
    · have heq : argmaxAux m j k (a :: t) = argmaxAux m j (k + 1) t := by
        rw [argmaxAux_cons, if_neg hma]
      rw [heq]
      push_neg at hma
      obtain ⟨h1, h2, h3⟩ := ih m j (k + 1)
      refine ⟨h1, ?_, ?_⟩
      · intro i hi
        cases i with
        | zero => simpa using le_trans hma h1
        | succ i' =>
          rw [List.getD_cons_succ]
          exact h2 i' (by simpa using hi)
      · rcases h3 with ⟨hj, hm⟩ | ⟨i, hi, hji, hval, hlt, hfirst⟩
        · exact Or.inl ⟨hj, hm⟩
        · refine Or.inr ⟨i + 1, by simpa using hi, by omega, ?_, hlt, ?_⟩
          · simpa using hval
          · intro i' hi'
            cases i' with
            | zero => simpa using lt_of_le_of_lt hma hlt
            | succ i'' =>
              rw [List.getD_cons_succ]
              exact hfirst i'' (by omega)

/-- `np.max` / `np.argmax` behaviour of `argmaxList`: the returned value is
attained at the returned index, bounds every entry, and every entry strictly
before the returned index is strictly below it (first-occurrence argmax). -/
theorem argmaxList_spec (l : List ℚ) (m : ℚ) (j : ℕ)
    (h : argmaxList l = some (m, j)) :
    j < l.length ∧ l.getD j 0 = m ∧ (∀ i, i < l.length → l.getD i 0 ≤ m) ∧
      (∀ i, i < j → l.getD i 0 < m) := by
  cases l with
  | nil => simp [argmaxList] at h
  | cons a t =>
    have heq : argmaxAux a 0 1 t = (m, j) := by
      simpa [argmaxList] using h
    obtain ⟨h1, h2, h3⟩ := argmaxAux_spec t a 0 1
    rw [heq] at h1 h2 h3
    simp only at h1 h2 h3
    rcases h3 with ⟨hj, hm⟩ | ⟨i, hi, hji, hval, hlt, hfirst⟩
    · subst hj
      refine ⟨by simp, by simpa using hm.symm, ?_, by omega⟩
      intro i hi
      cases i with
      | zero => simpa using hm.ge
      | succ i' =>
        rw [List.getD_cons_succ]
        exact h2 i' (by simpa using hi)
    · subst hji
      refine ⟨by simp only [List.length_cons]; omega, ?_, ?_, ?_⟩
      · have : 1 + i = i + 1 := by omega
        rw [this, List.getD_cons_succ]
        exact hval
      · intro i0 hi0
        cases i0 with
        | zero => simpa using h1
        | succ i0' =>
          rw [List.getD_cons_succ]
          exact h2 i0' (by simpa using hi0)
      · intro i0 hi0
        cases i0 with
        | zero => simpa using hlt
        | succ i0' =>
          rw [List.getD_cons_succ]
          exact hfirst i0' (by omega)

theorem argmaxList_isSome_of_ne_nil (l : List ℚ) (hl : l ≠ []) :
    ∃ m j, argmaxList l = some (m, j) := by
  cases l with
  | nil => exact absurd rfl hl
  | cons a t => exact ⟨(argmaxAux a 0 1 t).1, (argmaxAux a 0 1 t).2, rfl⟩

/-! ### The matching-loop invariant -/

/-- Invariant of the claimed-state `selec` of the matching loop: one row per
image, each row parallel to that image's ground-truth boxes, and claimed
entries are never difficult. -/
def SelecOk (gtb : List (List BBox)) (gtd : List (List Bool))
    (selec : List (List Bool)) : Prop :=
  selec.length = gtb.length ∧
  (∀ i, (selec.getD i []).length = (gtb.getD i []).length) ∧
  (∀ i j, (selec.getD i []).getD j false = true →
    (gtd.getD i []).getD j false = false)

theorem claimedCount_cons (row : List Bool) (t : List (List Bool)) :
    claimedCount (row :: t) = row.countP id + claimedCount t := by
  simp [claimedCount]

theorem npos_cons (row : List Bool) (t : List (List Bool))  :
    npos (row :: t) = row.countP (fun d => !d) + npos t := by
  simp [npos]

theorem initSelec_getD (gtb : List (List BBox)) (i : ℕ) :
    (initSelec gtb).getD i [] =
      List.replicate ((gtb.getD i []).length) false := by
  rw [List.getD_eq_getElem?_getD, initSelec, List.getElem?_map,
    List.getD_eq_getElem?_getD]
  cases h : gtb[i]? with
  | none => simp
  | some g => simp

theorem selecOk_init (gtb : List (List BBox)) (gtd : List (List Bool)) :
    SelecOk gtb gtd (initSelec gtb) := by
  refine ⟨by simp [initSelec], ?_, ?_⟩
  · intro i
    rw [initSelec_getD]
    simp
  · intro i j h
    rw [initSelec_getD] at h
    rcases Nat.lt_or_ge j ((gtb.getD i []).length) with hj | hj
    · rw [List.getD_eq_getElem _ _ (by simpa using hj)] at h
      simp at h
    · rw [List.getD_eq_default _ _ (by simpa using hj)] at h
      exact absurd h (by simp)

theorem claimedCount_init (gtb : List (List BBox)) :
    claimedCount (initSelec gtb) = 0 := by
  unfold claimedCount initSelec
  rw [List.map_map]
  refine List.sum_eq_zero ?_
  intro x hx
  obtain ⟨g, _, rfl⟩ := List.mem_map.mp hx
  simp [List.countP_replicate]

/-- Case analysis of one loop iteration: either nothing changes and the
detection is a false positive (`(selec, false, true)`), or nothing changes
and it is discarded (difficult match, `(selec, false, false)`), or it is a
true positive claiming the maximum-IoU box `j`. -/
theorem matchOne_spec (gtb : List (List BBox)) (gtd : List (List Bool))
    (min_iou : ℚ) (selec : List (List Bool)) (idx : ℕ) (bb : BBox) :
    matchOne gtb gtd min_iou selec idx bb = (selec, false, true) ∨
    matchOne gtb gtd min_iou selec idx bb = (selec, false, false) ∨
    ∃ m j, argmaxList ((gtb.getD idx []).map (fun g => iou bb g)) = some (m, j) ∧
      min_iou < m ∧ (gtd.getD idx []).getD j false = false ∧
      (selec.getD idx []).getD j false = false ∧
      matchOne gtb gtd min_iou selec idx bb =
        (selec.set idx ((selec.getD idx []).set j true), true, false) := by
  unfold matchOne
  cases h : argmaxList ((gtb.getD idx []).map (fun g => iou bb g)) with
  | none => exact Or.inl rfl
  | some mj =>
    obtain ⟨m, j⟩ := mj
    simp only
    by_cases h1 : min_iou < m
    · rw [if_pos h1]
      by_cases h2 : ((gtd.getD idx []).getD j false) = false
      · rw [if_pos h2]
        by_cases h3 : ((selec.getD idx []).getD j false) = false
        · rw [if_pos h3]
          exact Or.inr (Or.inr ⟨m, j, rfl, h1, h2, h3, rfl⟩)
        · rw [if_neg h3]
          exact Or.inl rfl
      · rw [if_neg h2]
        exact Or.inr (Or.inl rfl)
    · rw [if_neg h1]
      exact Or.inl rfl

theorem idx_lt_of_argmax_some (gtb : List (List BBox)) (idx : ℕ) (bb : BBox)
    (m : ℚ) (j : ℕ)
    (h : argmaxList ((gtb.getD idx []).map (fun g => iou bb g)) = some (m, j)) :
    idx < gtb.length := by
  by_contra hidx
  push_neg at hidx
  rw [List.getD_eq_default _ _ hidx] at h
  simp [argmaxList] at h

theorem countP_id_set_true (row : List Bool) (j : ℕ) (hj : j < row.length)
    (hv : row.getD j false = false) :
    (row.set j true).countP id = row.countP id + 1 := by
  rw [List.countP_set id row j true hj]
  rw [List.getD_eq_getElem _ _ hj] at hv
  simp [hv]

theorem claimedCount_set (selec : List (List Bool)) (idx : ℕ)
    (row' : List Bool) (h : idx < selec.length) :
    claimedCount (selec.set idx row') + (selec.getD idx []).countP id =
      claimedCount selec + row'.countP id := by
  induction selec generalizing idx with
  | nil => simp at h
  | cons s t ih =>
    cases idx with
    | zero =>
      simp only [List.set_cons_zero, claimedCount_cons, List.getD_cons_zero]
      omega
    | succ idx' =>
      simp only [List.set_cons_succ, claimedCount_cons, List.getD_cons_succ]
      have := ih idx' (by simpa using h)
      omega

theorem getD_set_self (l : List Bool) (selec : List (List Bool)) (idx : ℕ)
    (h : idx < selec.length) :
    (selec.set idx l).getD idx [] = l := by
  rw [List.getD_eq_getElem?_getD, List.getElem?_set]
  simp [h]

theorem getD_set_other (l : List Bool) (selec : List (List Bool)) (idx i : ℕ)
    (h : idx ≠ i) :
    (selec.set idx l).getD i [] = selec.getD i [] := by
  rw [List.getD_eq_getElem?_getD, List.getElem?_set, if_neg h,
    ← List.getD_eq_getElem?_getD]

/-- One loop iteration preserves the invariant, and increments the number of
claimed ground-truth boxes exactly when it emits a true positive. -/
theorem matchOne_invariant (gtb : List (List BBox)) (gtd : List (List Bool))
    (min_iou : ℚ) (selec : List (List Bool)) (idx : ℕ) (bb : BBox)
    (hok : SelecOk gtb gtd selec) :
    SelecOk gtb gtd (matchOne gtb gtd min_iou selec idx bb).1 ∧
    claimedCount (matchOne gtb gtd min_iou selec idx bb).1 =
      claimedCount selec +
        (if (matchOne gtb gtd min_iou selec idx bb).2.1 then 1 else 0) := by
  rcases matchOne_spec gtb gtd min_iou selec idx bb with h | h | ⟨m, j, ha, _, hdiff, hclaim, h⟩
  · rw [h]
    simpa using hok
  · rw [h]
    simpa using hok
  · rw [h]
    simp only
    have hidx : idx < gtb.length := idx_lt_of_argmax_some gtb idx bb m j ha
    have hidx' : idx < selec.length := by rw [hok.1]; exact hidx
    have hj : j < ((gtb.getD idx []).length) := by
      have := (argmaxList_spec _ m j ha).1
      simpa using this
    have hjrow : j < (selec.getD idx []).length := by
      rw [hok.2.1 idx]
      exact hj
    constructor
    · refine ⟨by rw [List.length_set, hok.1], ?_, ?_⟩
      · intro i
        by_cases hi : idx = i
        · subst hi
          rw [getD_set_self _ _ _ hidx', List.length_set]
          exact hok.2.1 idx
        · rw [getD_set_other _ _ _ _ hi]
          exact hok.2.1 i
      · intro i j' hset
        by_cases hi : idx = i
        · subst hi
          rw [getD_set_self _ _ _ hidx'] at hset
          by_cases hjj : j = j'
          · subst hjj
            exact hdiff
          · have : (selec.getD idx []).getD j' false = true := by
              rw [List.getD_eq_getElem?_getD, List.getElem?_set, if_neg hjj,
                ← List.getD_eq_getElem?_getD] at hset
              exact hset
            exact hok.2.2 idx j' this
        · rw [getD_set_other _ _ _ _ hi] at hset
          exact hok.2.2 i j' hset
    · have hcount := claimedCount_set selec idx ((selec.getD idx []).set j true) hidx'
      have hone := countP_id_set_true (selec.getD idx []) j hjrow hclaim
      simp only [if_true]
      omega

/-- Upper bound for the claimed count: at most the number of non-difficult
ground-truth boxes. -/
theorem countP_true_le_countP_not (bs ds : List Bool)
    (hlen : bs.length = ds.length)
    (h : ∀ j, bs.getD j false = true → ds.getD j false = false) :
    bs.countP id ≤ ds.countP (fun d => !d) := by
  induction bs generalizing ds with
  | nil => simp
  | cons b bs' ih =>
    cases ds with
    | nil => simp at hlen
    | cons d ds' =>
      rw [List.countP_cons, List.countP_cons]
      have hhead : (if id b = true then 1 else 0) ≤ (if (!d) = true then 1 else 0) := by
        by_cases hb : b = true
        · have hd : d = false := by
            have := h 0
            simpa [hb] using this
          simp [hb, hd]
        · simp [hb]
      have htail : bs'.countP id ≤ ds'.countP (fun d => !d) := by
        refine ih ds' (by simpa using hlen) ?_
        intro j hj
        have := h (j + 1)
        simpa using this hj
      omega

theorem claimedCount_le_npos_aux : ∀ (selec gtd : List (List Bool)),
    selec.length = gtd.length →
    (∀ i, (selec.getD i []).countP id ≤ (gtd.getD i []).countP (fun d => !d)) →
    claimedCount selec ≤ npos gtd := by
  intro selec
  induction selec with
  | nil =>
    intro gtd _ _
    simp [claimedCount]
  | cons s st ih =>
    intro gtd hlen h
    cases gtd with
    | nil => simp at hlen
    | cons d dt =>
      rw [claimedCount_cons, npos_cons]
      have hhead := h 0
      simp only [List.getD_cons_zero] at hhead
      have htail := ih dt (by simpa using hlen) (fun i => by
        have := h (i + 1)
        simpa using this)
      omega

theorem claimedCount_le_npos (gtb : List (List BBox)) (gtd : List (List Bool))
    (selec : List (List Bool)) (hok : SelecOk gtb gtd selec)
    (hlen : gtd.length = gtb.length)
    (hrows : ∀ i, (gtd.getD i []).length = (gtb.getD i []).length) :
    claimedCount selec ≤ npos gtd := by
  refine claimedCount_le_npos_aux selec gtd (by rw [hok.1, hlen]) ?_
  intro i
  refine countP_true_le_countP_not _ _ ?_ (fun j => hok.2.2 i j)
  rw [hok.2.1 i, hrows i]

/-! ### Loop-level lemmas -/

theorem runMatch_lengths (gtb : List (List BBox)) (gtd : List (List Bool))
    (min_iou : ℚ) : ∀ (dets : List (ℕ × ℚ × BBox)) (selec : List (List Bool)),
    (runMatch gtb gtd min_iou selec dets).2.1.length = dets.length ∧
    (runMatch gtb gtd min_iou selec dets).2.2.length = dets.length := by
  intro dets
  induction dets with
  | nil => intro selec; simp [runMatch]
  | cons d rest ih =>
    intro selec
    obtain ⟨idx, s, bb⟩ := d
    simp only [runMatch, List.length_cons]
    have := ih (matchOne gtb gtd min_iou selec idx bb).1
    omega

/-- After the loop has consumed any prefix of the detections, the claimed
count accounts exactly for the emitted true positives, and the invariant
still holds. -/
theorem runMatch_invariant (gtb : List (List BBox)) (gtd : List (List Bool))
    (min_iou : ℚ) : ∀ (dets : List (ℕ × ℚ × BBox)) (selec : List (List Bool)),
    SelecOk gtb gtd selec →
    SelecOk gtb gtd (runMatch gtb gtd min_iou selec dets).1 ∧
    claimedCount (runMatch gtb gtd min_iou selec dets).1 =
      claimedCount selec +
        ((runMatch gtb gtd min_iou selec dets).2.1.countP id) := by
  intro dets
  induction dets with
  | nil =>
    intro selec hok
    simpa [runMatch] using hok
  | cons d rest ih =>
    intro selec hok
    obtain ⟨idx, s, bb⟩ := d
    simp only [runMatch, List.countP_cons, id_eq]
    obtain ⟨hok', hcc⟩ := matchOne_invariant gtb gtd min_iou selec idx bb hok
    obtain ⟨hok'', hcc'⟩ := ih (matchOne gtb gtd min_iou selec idx bb).1 hok'
    exact ⟨hok'', by omega⟩

/-- The number of true positives in any prefix of the loop output never
exceeds `npos`, starting from an invariant-satisfying state. -/
theorem runMatch_take_le (gtb : List (List BBox)) (gtd : List (List Bool))
    (min_iou : ℚ) (hlen : gtd.length = gtb.length)
    (hrows : ∀ i, (gtd.getD i []).length = (gtb.getD i []).length) :
    ∀ (dets : List (ℕ × ℚ × BBox)) (selec : List (List Bool)),
    SelecOk gtb gtd selec → ∀ k,
    claimedCount selec +
      (((runMatch gtb gtd min_iou selec dets).2.1.take k).countP id) ≤
      npos gtd := by
  intro dets
  induction dets with
  | nil =>
    intro selec hok k
    simp only [runMatch, List.take_nil, List.countP_nil, Nat.add_zero]
    exact claimedCount_le_npos gtb gtd selec hok hlen hrows
  | cons d rest ih =>
    intro selec hok k
    obtain ⟨idx, s, bb⟩ := d
    obtain ⟨hok', hcc⟩ := matchOne_invariant gtb gtd min_iou selec idx bb hok
    cases k with
    | zero =>
      simp only [runMatch, List.take_zero, List.countP_nil, Nat.add_zero]
      exact claimedCount_le_npos gtb gtd selec hok hlen hrows
    | succ k' =>
      simp only [runMatch, List.take_succ_cons, List.countP_cons, id_eq]
      have := ih (matchOne gtb gtd min_iou selec idx bb).1 hok' k'
      omega

/-- Every entry of the cumulative true-positive curve, started at the
current claimed count, stays at most `npos`. -/
theorem runMatch_cumsum_le (gtb : List (List BBox)) (gtd : List (List Bool))
    (min_iou : ℚ) (hlen : gtd.length = gtb.length)
    (hrows : ∀ i, (gtd.getD i []).length = (gtb.getD i []).length) :
    ∀ (dets : List (ℕ × ℚ × BBox)) (selec : List (List Bool)),
    SelecOk gtb gtd selec →
    ∀ y ∈ cumsumFrom (claimedCount selec : ℚ)
      ((runMatch gtb gtd min_iou selec dets).2.1.map toQ01),
      y ≤ (npos gtd : ℚ) := by
  intro dets
  induction dets with
  | nil =>
    intro selec _ y hy
    simp [runMatch, cumsumFrom] at hy
  | cons d rest ih =>
    intro selec hok y hy
    obtain ⟨idx, s, bb⟩ := d
    obtain ⟨hok', hcc⟩ := matchOne_invariant gtb gtd min_iou selec idx bb hok
    simp only [runMatch, List.map_cons, cumsumFrom] at hy
    have hacc : (claimedCount selec : ℚ) +
        toQ01 (matchOne gtb gtd min_iou selec idx bb).2.1 =
        (claimedCount (matchOne gtb gtd min_iou selec idx bb).1 : ℚ) := by
      rw [hcc]
      push_cast
      unfold toQ01
      by_cases ht : (matchOne gtb gtd min_iou selec idx bb).2.1
      · simp [ht]
      · simp [ht]
    rw [hacc] at hy
    rcases List.mem_cons.mp hy with rfl | hy2
    · have h1 : claimedCount (matchOne gtb gtd min_iou selec idx bb).1 ≤ npos gtd :=
        claimedCount_le_npos gtb gtd _ hok' hlen hrows
      exact_mod_cast h1
    · exact ih (matchOne gtb gtd min_iou selec idx bb).1 hok' y hy2

/-! ### Membership helper for `zipWith` -/

theorem of_mem_zipWith {α β γ : Type} (f : α → β → γ) (l₁ : List α)
    (l₂ : List β) (x : γ) (hx : x ∈ List.zipWith f l₁ l₂) :
    ∃ a ∈ l₁, ∃ b ∈ l₂, x = f a b := by
  induction l₁ generalizing l₂ with
  | nil => simp at hx
  | cons a t ih =>
    cases l₂ with
    | nil => simp at hx
    | cons b t' =>
      rw [List.zipWith_cons_cons] at hx
      rcases List.mem_cons.mp hx with rfl | hx2
      · exact ⟨a, by simp, b, by simp, rfl⟩
      · obtain ⟨a', ha, b', hb, hfx⟩ := ih t' hx2
        exact ⟨a', by simp [ha], b', by simp [hb], hfx⟩

/-! ### Bounds on `voc_ap` -/

theorem ap07_bounds (rec prec : List ℚ) (hprec : ∀ x ∈ prec, 0 ≤ x ∧ x ≤ 1) :
    0 ≤ voc_ap rec prec true ∧ voc_ap rec prec true ≤ 1 := by
  have hb : ∀ t : ℚ, 0 ≤ maskedMax rec prec t ∧ maskedMax rec prec t ≤ 1 :=
    fun t => ⟨maskedMax_nonneg rec prec t (fun x hx => (hprec x hx).1),
      maskedMax_le_one rec prec t (fun x hx => (hprec x hx).2)⟩
  obtain ⟨a0, b0⟩ := hb 0
  obtain ⟨a1, b1⟩ := hb (1/10)
  obtain ⟨a2, b2⟩ := hb (2/10)
  obtain ⟨a3, b3⟩ := hb (3/10)
  obtain ⟨a4, b4⟩ := hb (4/10)
  obtain ⟨a5, b5⟩ := hb (5/10)
  obtain ⟨a6, b6⟩ := hb (6/10)
  obtain ⟨a7, b7⟩ := hb (7/10)
  obtain ⟨a8, b8⟩ := hb (8/10)
  obtain ⟨a9, b9⟩ := hb (9/10)
  obtain ⟨a10, b10⟩ := hb 1
  simp only [voc_ap, if_true, thresholds07, List.foldl]
  constructor <;> linarith

theorem chain'_mrec (rec : List ℚ) (hrec : ∀ x ∈ rec, 0 ≤ x ∧ x ≤ 1)
    (hchain : List.Chain' (· ≤ ·) rec) :
    List.Chain' (· ≤ ·) (0 :: rec ++ [1]) := by
  rw [show ((0 : ℚ) :: rec ++ [1]) = ((0 :: rec) ++ [1]) from rfl,
    List.chain'_append]
  refine ⟨?_, by simp, ?_⟩
  · rw [List.chain'_cons']
    refine ⟨?_, hchain⟩
    intro y hy
    exact (hrec y (List.mem_of_mem_head? hy)).1
  · intro x hx y hy
    have hy1 : (1 : ℚ) = y := by simpa using hy
    subst hy1
    have hx' := List.mem_of_mem_getLast? hx
    rcases List.mem_cons.mp hx' with rfl | h2
    · norm_num
    · exact (hrec x h2).2

theorem apEnvelope_bounds (rec prec : List ℚ) (hlen : rec.length = prec.length)
    (hrec : ∀ x ∈ rec, 0 ≤ x ∧ x ≤ 1) (hchain : List.Chain' (· ≤ ·) rec)
    (hprec : ∀ x ∈ prec, 0 ≤ x ∧ x ≤ 1) :
    0 ≤ apEnvelope rec prec ∧ apEnvelope rec prec ≤ 1 := by
  have hmrecChain := chain'_mrec rec hrec hchain
  have hme : ∀ x ∈ suffixMax (0 :: prec ++ [0]), 0 ≤ x ∧ x ≤ 1 := by
    intro x hx
    have hx' := mem_suffixMax _ x hx
    rcases List.mem_cons.mp hx' with rfl | h2
    · norm_num
    · rcases List.mem_append.mp h2 with h3 | h3
      · exact hprec x h3
      · have : x = 0 := by simpa using h3
        subst this
        norm_num
  have hlen2 : ((0 : ℚ) :: rec ++ [1]).length =
      (suffixMax (0 :: prec ++ [0])).length := by
    rw [suffixMax_length]
    simp [hlen]
  constructor
  · exact sumDeltas_nonneg _ _ hmrecChain (fun x hx => (hme x hx).1)
  · have hle := sumDeltas_le _ _ hmrecChain hlen2 (fun x hx => (hme x hx).2)
    have hlast : ((0 : ℚ) :: rec ++ [1]).getLast?.getD 0 = 1 := by
      rw [show ((0 : ℚ) :: rec ++ [1]) = ((0 :: rec) ++ [1]) from rfl,
        List.getLast?_concat]
      rfl
    rw [hlast] at hle
    have hhead : ((0 : ℚ) :: rec ++ [1]).head?.getD 0 = 0 := rfl
    rw [hhead] at hle
    unfold apEnvelope
    linarith

theorem voc_ap_bounds (rec prec : List ℚ) (b : Bool)
    (hlen : rec.length = prec.length)
    (hrec : ∀ x ∈ rec, 0 ≤ x ∧ x ≤ 1) (hchain : List.Chain' (· ≤ ·) rec)
    (hprec : ∀ x ∈ prec, 0 ≤ x ∧ x ≤ 1) :
    0 ≤ voc_ap rec prec b ∧ voc_ap rec prec b ≤ 1 := by
  cases b with
  | true => exact ap07_bounds rec prec hprec
  | false =>
    have := apEnvelope_bounds rec prec hlen hrec hchain hprec
    simpa [voc_ap] using this

/-! ### Properties of the matcher output curves -/

theorem chain'_replicate_le (n : ℕ) (a : ℚ) :
    List.Chain' (· ≤ ·) (List.replicate n a) := by
  induction n with
  | zero => simp
  | succ n' ih =>
    rw [List.replicate_succ, List.chain'_cons']
    refine ⟨?_, ih⟩
    intro y hy
    have := List.mem_of_mem_head? hy
    rw [List.eq_of_mem_replicate this]

theorem toQ01_nonneg (b : Bool) : 0 ≤ toQ01 b := by
  unfold toQ01
  by_cases h : b <;> simp [h]

theorem recOf_entries (gtb : List (List BBox)) (gtd : List (List Bool))
    (min_iou : ℚ) (dets : List (ℕ × ℚ × BBox))
    (hlen : gtd.length = gtb.length)
    (hrows : ∀ i, (gtd.getD i []).length = (gtb.getD i []).length)
    (hnpos : npos gtd ≠ 0) :
    ∀ x ∈ recOf gtd (runMatch gtb gtd min_iou (initSelec gtb) dets).2.1,
      0 ≤ x ∧ x ≤ 1 := by
  intro x hx
  unfold recOf at hx
  obtain ⟨t, ht, rfl⟩ := List.mem_map.mp hx
  have hnq : (0 : ℚ) < (npos gtd : ℚ) := by
    exact_mod_cast Nat.pos_of_ne_zero hnpos
  have ht0 : (0 : ℚ) ≤ t := by
    have := le_of_mem_cumsumFrom 0
      ((runMatch gtb gtd min_iou (initSelec gtb) dets).2.1.map toQ01)
      (fun y hy => by
        obtain ⟨bfl, _, rfl⟩ := List.mem_map.mp hy
        exact toQ01_nonneg bfl) t ht
    exact this
  have htn : t ≤ (npos gtd : ℚ) := by
    have hini := runMatch_cumsum_le gtb gtd min_iou hlen hrows dets
      (initSelec gtb) (selecOk_init gtb gtd)
    rw [claimedCount_init gtb] at hini
    have := hini t (by simpa [cumsum] using ht)
    exact this
  constructor
  · exact div_nonneg ht0 (le_of_lt hnq)
  · exact (div_le_one hnq).mpr htn

theorem recOf_chain (gtd : List (List Bool)) (tps : List Bool) :
    List.Chain' (· ≤ ·) (recOf gtd tps) := by
  unfold recOf
  rw [List.chain'_map]
  have hchain : List.Chain' (· ≤ ·) (cumsum (tps.map toQ01)) :=
    chain'_cumsumFrom 0 _ (fun y hy => by
      obtain ⟨bfl, _, rfl⟩ := List.mem_map.mp hy
      exact toQ01_nonneg bfl)
  refine hchain.imp ?_
  intro a b hab
  rcases Nat.eq_zero_or_pos (npos gtd) with h0 | hpos
  · simp [h0]
  · have : (0 : ℚ) < (npos gtd : ℚ) := by exact_mod_cast hpos
    exact (div_le_div_iff_of_pos_right this).mpr hab

theorem precOf_entries (tps fps : List Bool) :
    ∀ x ∈ precOf tps fps, 0 ≤ x ∧ x ≤ 1 := by
  intro x hx
  unfold precOf at hx
  obtain ⟨t, ht, f, hf, rfl⟩ := of_mem_zipWith _ _ _ x hx
  have ht0 : (0 : ℚ) ≤ t :=
    le_of_mem_cumsumFrom 0 _ (fun y hy => by
      obtain ⟨bfl, _, rfl⟩ := List.mem_map.mp hy
      exact toQ01_nonneg bfl) t ht
  have hf0 : (0 : ℚ) ≤ f :=
    le_of_mem_cumsumFrom 0 _ (fun y hy => by
      obtain ⟨bfl, _, rfl⟩ := List.mem_map.mp hy
      exact toQ01_nonneg bfl) f hf
  have heps : (0 : ℚ) < eps := by norm_num [eps]
  have hden : (0 : ℚ) < max (f + t) eps := lt_of_lt_of_le heps (le_max_right _ _)
  constructor
  · exact div_nonneg ht0 (le_of_lt hden)
  · refine (div_le_one hden).mpr ?_
    calc t ≤ f + t := by linarith
    _ ≤ max (f + t) eps := le_max_left _ _

theorem recOf_length (gtd : List (List Bool)) (tps : List Bool) :
    (recOf gtd tps).length = tps.length := by
  unfold recOf cumsum
  rw [List.length_map, cumsumFrom_length, List.length_map]

theorem precOf_length (tps fps : List Bool) :
    (precOf tps fps).length = min tps.length fps.length := by
  unfold precOf cumsum
  rw [List.length_zipWith, cumsumFrom_length, cumsumFrom_length,
    List.length_map, List.length_map]

/-! ### Spec-side formulations of the two AP integrators -/

/-- Spec-side counterpart of the precision envelope: the maximum of the
entries of `l` from position `i` on (`0` out of range).  This follows the
spec wording "right-to-left running maximum `mpre[i] = max(mpre[i],
mpre[i+1])`", whose result at `i` is the maximum over positions `≥ i`. -/
def suffixMaxAt (l : List ℚ) (i : ℕ) : ℚ :=
  match l.drop i with
  | [] => 0
  | a :: t => listMax1 a t

theorem suffixMaxAt_zero_cons (a : ℚ) (t : List ℚ) :
    suffixMaxAt (a :: t) 0 = listMax1 a t := rfl

theorem suffixMaxAt_succ_cons (a : ℚ) (t : List ℚ) (i : ℕ) :
    suffixMaxAt (a :: t) (i + 1) = suffixMaxAt t i := by
  unfold suffixMaxAt
  rw [List.drop_succ_cons]

/-- The computed right-to-left running maximum agrees, entrywise, with the
suffix maximum. -/
theorem suffixMax_getD (l : List ℚ) : ∀ i, i < l.length →
    (suffixMax l).getD i 0 = suffixMaxAt l i := by
  induction l with
  | nil => simp
  | cons a t ih =>
    intro i hi
    cases h : suffixMax t with
    | nil =>
      have ht : t = [] := by
        have := suffixMax_length t
        rw [h] at this
        simpa using List.length_eq_zero.mp this.symm
      subst ht
      rw [suffixMax_cons_of_nil a [] h]
      cases i with
      | zero => rfl
      | succ i' => simp at hi
    | cons b bt =>
      have htne : t ≠ [] := by
        intro hteq
        subst hteq
        simp [suffixMax] at h
      rw [suffixMax_cons_of_cons a b t bt h]
      cases i with
      | zero =>
        obtain ⟨t0, tt, rfl⟩ := List.exists_cons_of_ne_nil htne
        have hb : b = suffixMaxAt (t0 :: tt) 0 := by
          have := ih 0 (by simp)
          rw [h] at this
          simpa using this
        rw [List.getD_cons_zero, suffixMaxAt_zero_cons, hb,
          suffixMaxAt_zero_cons]
        rfl
      | succ i' =>
        rw [List.getD_cons_succ, suffixMaxAt_succ_cons]
        have := ih i' (by simpa using hi)
        rw [h] at this
        exact this

/-- `sumDeltas` written as a sum over the indices where the first list
changes value. -/
theorem sumDeltas_eq_sum : ∀ (rs es : List ℚ), rs.length = es.length →
    sumDeltas rs es = ∑ k ∈ Finset.range (rs.length - 1),
      (if rs.getD (k + 1) 0 ≠ rs.getD k 0
       then (rs.getD (k + 1) 0 - rs.getD k 0) * es.getD (k + 1) 0 else 0) := by
  intro rs
  induction rs with
  | nil =>
    intro es _
    rw [sumDeltas_nil]
    simp
  | cons r0 rt ih =>
    intro es hlen
    cases rt with
    | nil =>
      rw [sumDeltas_single]
      simp
    | cons r1 rs' =>
      cases es with
      | nil => simp at hlen
      | cons e0 et =>
        cases et with
        | nil => simp at hlen
        | cons e1 es' =>
          rw [sumDeltas_cons₂, ih (e1 :: es') (by simpa using hlen)]
          simp only [List.length_cons, Nat.add_sub_cancel]
          rw [Finset.sum_range_succ']
          have hsum : ∀ k, ((r0 :: r1 :: rs').getD (k + 1 + 1) 0 = (r1 :: rs').getD (k + 1) 0 ∧
              (r0 :: r1 :: rs').getD (k + 1) 0 = (r1 :: rs').getD k 0 ∧
              (e0 :: e1 :: es').getD (k + 1 + 1) 0 = (e1 :: es').getD (k + 1) 0) := by
            intro k
            exact ⟨List.getD_cons_succ, List.getD_cons_succ, List.getD_cons_succ⟩
          have hcongr : (∑ k ∈ Finset.range (rs'.length),
              (if (r0 :: r1 :: rs').getD (k + 1 + 1) 0 ≠ (r0 :: r1 :: rs').getD (k + 1) 0
               then ((r0 :: r1 :: rs').getD (k + 1 + 1) 0 - (r0 :: r1 :: rs').getD (k + 1) 0) *
                 (e0 :: e1 :: es').getD (k + 1 + 1) 0 else 0)) =
              ∑ k ∈ Finset.range (rs'.length),
              (if (r1 :: rs').getD (k + 1) 0 ≠ (r1 :: rs').getD k 0
               then ((r1 :: rs').getD (k + 1) 0 - (r1 :: rs').getD k 0) *
                 (e1 :: es').getD (k + 1) 0 else 0) := by
            refine Finset.sum_congr rfl ?_
            intro k _
            obtain ⟨ha, hb, hc⟩ := hsum k
            rw [ha, hb, hc]
          rw [hcongr]
          have hzero : (if (r0 :: r1 :: rs').getD (0 + 1) 0 ≠ (r0 :: r1 :: rs').getD 0 0
              then ((r0 :: r1 :: rs').getD (0 + 1) 0 - (r0 :: r1 :: rs').getD 0 0) *
                (e0 :: e1 :: es').getD (0 + 1) 0 else 0) =
              (if r1 ≠ r0 then (r1 - r0) * e1 else 0) := by
            rw [show (0 + 1) = 1 from rfl]
            rfl
          rw [hzero, add_comm]

/-- The envelope-AP branch, written exactly as the spec describes it: sum
over recall-change indices of the padded curves, with the envelope value
given as a suffix maximum. -/
theorem apEnvelope_eq_spec_sum (rec prec : List ℚ)
    (hlen : rec.length = prec.length) :
    apEnvelope rec prec =
      ∑ k ∈ Finset.range ((0 :: rec ++ [1] : List ℚ).length - 1),
        (if (0 :: rec ++ [1] : List ℚ).getD (k + 1) 0 ≠
            (0 :: rec ++ [1] : List ℚ).getD k 0
         then ((0 :: rec ++ [1] : List ℚ).getD (k + 1) 0 -
            (0 :: rec ++ [1] : List ℚ).getD k 0) *
            suffixMaxAt (0 :: prec ++ [0]) (k + 1) else 0) := by
  have hlen2 : ((0 : ℚ) :: rec ++ [1]).length = ((0 : ℚ) :: prec ++ [0]).length := by
    simp [hlen]
  have hlen3 : ((0 : ℚ) :: rec ++ [1]).length =
      (suffixMax ((0 : ℚ) :: prec ++ [0])).length := by
    rw [suffixMax_length]
    exact hlen2
  unfold apEnvelope
  rw [sumDeltas_eq_sum _ _ hlen3]
  refine Finset.sum_congr rfl ?_
  intro k hk
  have hk' : k + 1 < ((0 : ℚ) :: prec ++ [0]).length := by
    have := Finset.mem_range.mp hk
    rw [← hlen2]
    omega
  rw [suffixMax_getD ((0 : ℚ) :: prec ++ [0]) (k + 1) hk']

/-- Spec-side counterpart of `maskedMax`: the maximum of `precision[i]`
over the indices `i` with `t ≤ recall[i]`, or `0` if no index qualifies. -/
def idxMaxPrec (rec prec : List ℚ) (t : ℚ) : ℚ :=
  match ((List.range rec.length).filter (fun i => t ≤ rec.getD i 0)).map
      (fun i => prec.getD i 0) with
  | [] => 0
  | a :: l => listMax1 a l

theorem masked_list_eq_idx_list : ∀ (rec prec : List ℚ), rec.length = prec.length →
    ∀ t : ℚ, ((rec.zip prec).filter (fun rp => t ≤ rp.1)).map Prod.snd =
      ((List.range rec.length).filter (fun i => t ≤ rec.getD i 0)).map
        (fun i => prec.getD i 0) := by
  intro rec
  induction rec with
  | nil =>
    intro prec _ t
    simp
  | cons r rt ih =>
    intro prec hlen t
    cases prec with
    | nil => simp at hlen
    | cons p pt =>
      have htail := ih pt (by simpa using hlen) t
      rw [List.length_cons, List.range_succ_eq_map]
      rw [List.zip_cons_cons, List.filter_cons, List.filter_cons]
      have hpred : (fun i => decide (t ≤ (r :: rt).getD i 0)) ∘ Nat.succ =
          (fun i => decide (t ≤ rt.getD i 0)) := by
        funext i
        simp [List.getD_cons_succ]
      rw [List.filter_map, hpred]
      by_cases hr : t ≤ r
      · rw [if_pos (by simpa using hr), if_pos (by simpa using hr)]
        rw [List.map_cons, List.map_cons, List.map_map]
        congr 1
      · rw [if_neg (by simpa using hr), if_neg (by simpa using hr)]
        rw [List.map_map, htail]
        refine List.map_congr_left ?_
        intro i _
        simp [List.getD_cons_succ]

theorem maskedMax_eq_idxMaxPrec (rec prec : List ℚ)
    (hlen : rec.length = prec.length) (t : ℚ) :
    maskedMax rec prec t = idxMaxPrec rec prec t := by
  unfold maskedMax idxMaxPrec
  rw [masked_list_eq_idx_list rec prec hlen t]

/-- The 11-point branch, written exactly as the spec describes it: the mean
of the eleven interpolated precisions at thresholds `k/10`, `k = 0..10`. -/
theorem ap07_eq_spec_sum (rec prec : List ℚ) (hlen : rec.length = prec.length) :
    voc_ap rec prec true =
      (∑ k ∈ Finset.range 11, idxMaxPrec rec prec ((k : ℚ) / 10)) / 11 := by
  have hm := maskedMax_eq_idxMaxPrec rec prec hlen
  simp only [voc_ap, if_true, thresholds07, List.foldl, hm]
  rw [Finset.sum_range_succ, Finset.sum_range_succ, Finset.sum_range_succ,
    Finset.sum_range_succ, Finset.sum_range_succ, Finset.sum_range_succ,
    Finset.sum_range_succ, Finset.sum_range_succ, Finset.sum_range_succ,
    Finset.sum_range_succ, Finset.sum_range_succ, Finset.sum_range_zero]
  norm_num
  ring

/-! ### AP of all-zero curves -/

theorem voc_ap_zeros (n : ℕ) (b : Bool) :
    voc_ap (List.replicate n 0) (List.replicate n 0) b = 0 := by
  cases b with
  | true =>
    have hz : ∀ t : ℚ,
        maskedMax (List.replicate n 0) (List.replicate n 0) t = 0 :=
      fun t => maskedMax_eq_zero _ _ t (fun x hx => List.eq_of_mem_replicate hx)
    simp only [voc_ap, if_true, thresholds07, List.foldl, hz]
    norm_num
  | false =>
    simp only [voc_ap, Bool.false_eq_true, if_false]
    unfold apEnvelope
    refine sumDeltas_of_zero _ _ ?_
    intro x hx
    have hx' := mem_suffixMax _ x hx
    rcases List.mem_cons.mp hx' with rfl | h2
    · rfl
    · rcases List.mem_append.mp h2 with h3 | h3
      · exact List.eq_of_mem_replicate h3
      · simpa using h3

/-! ## The claims -/

/-- C1: for every detection processed by the matching loop, with `ioumax`
and matched index `jmax` over the ground-truth boxes of its image:
it is a true positive (and the matched box becomes claimed) iff
`ioumax > min_iou` strictly, the matched box is not difficult, and it is not
already claimed; it is neither tp nor fp iff `ioumax > min_iou` and the
matched box is difficult; it is a false positive iff `ioumax ≤ min_iou`, or
the matched box is non-difficult but already claimed; and with zero
ground-truth boxes in its image it is unconditionally a false positive. -/
theorem claim_C1_matching_decision (gtb : List (List BBox))
    (gtd : List (List Bool)) (min_iou : ℚ) (selec : List (List Bool))
    (idx : ℕ) (bb : BBox) :
    ((gtb.getD idx [] = []) →
      matchOne gtb gtd min_iou selec idx bb = (selec, false, true)) ∧
    (∀ m j, argmaxList ((gtb.getD idx []).map (fun g => iou bb g)) = some (m, j) →
      (((matchOne gtb gtd min_iou selec idx bb).2.1 = true ↔
         (min_iou < m ∧ (gtd.getD idx []).getD j false = false ∧
          (selec.getD idx []).getD j false = false)) ∧
       ((matchOne gtb gtd min_iou selec idx bb).2.2 = true ↔
         (m ≤ min_iou ∨ (min_iou < m ∧ (gtd.getD idx []).getD j false = false ∧
          (selec.getD idx []).getD j false = true))) ∧
       (((matchOne gtb gtd min_iou selec idx bb).2.1 = false ∧
         (matchOne gtb gtd min_iou selec idx bb).2.2 = false) ↔
         (min_iou < m ∧ (gtd.getD idx []).getD j false = true)) ∧
       ((matchOne gtb gtd min_iou selec idx bb).1 =
         if min_iou < m ∧ (gtd.getD idx []).getD j false = false ∧
            (selec.getD idx []).getD j false = false
          then selec.set idx ((selec.getD idx []).set j true) else selec))) := by
  constructor
  · intro h
    unfold matchOne
    rw [h]
    rfl
  · intro m j hmj
    have hred : matchOne gtb gtd min_iou selec idx bb =
        (if min_iou < m then
          if (gtd.getD idx []).getD j false = false then
            if (selec.getD idx []).getD j false = false then
              (selec.set idx ((selec.getD idx []).set j true), true, false)
            else (selec, false, true)
          else (selec, false, false)
        else (selec, false, true)) := by
      unfold matchOne
      rw [hmj]
    rw [hred]
    by_cases h1 : min_iou < m
    · by_cases h2 : (gtd.getD idx []).getD j false = false
      · by_cases h3 : (selec.getD idx []).getD j false = false
        · rw [if_pos h1, if_pos h2, if_pos h3]
          refine ⟨iff_of_true rfl ⟨h1, h2, h3⟩, ?_, ?_, ?_⟩
          · refine iff_of_false (by simp) ?_
            rintro (hf | ⟨_, _, hf⟩)
            · exact absurd h1 (not_lt.mpr hf)
            · rw [h3] at hf
              simp at hf
          · refine iff_of_false (fun hf => by simpa using hf.1) ?_
            rintro ⟨_, hd⟩
            rw [h2] at hd
            simp at hd
          · rw [if_pos ⟨h1, h2, h3⟩]
        · rw [if_pos h1, if_pos h2, if_neg h3]
          have h3' : (selec.getD idx []).getD j false = true :=
            Bool.not_eq_false _ |>.mp h3
          refine ⟨?_, iff_of_true rfl (Or.inr ⟨h1, h2, h3'⟩), ?_, ?_⟩
          · refine iff_of_false (by simp) ?_
            rintro ⟨_, _, hc⟩
            rw [h3'] at hc
            simp at hc
          · refine iff_of_false (fun hf => by simpa using hf.2) ?_
            rintro ⟨_, hd⟩
            rw [h2] at hd
            simp at hd
          · rw [if_neg ?_]
            rintro ⟨_, _, hc⟩
            rw [h3'] at hc
            simp at hc
      · rw [if_pos h1, if_neg h2]
        have h2' : (gtd.getD idx []).getD j false = true :=
          Bool.not_eq_false _ |>.mp h2
        refine ⟨?_, ?_, iff_of_true ⟨rfl, rfl⟩ ⟨h1, h2'⟩, ?_⟩
        · refine iff_of_false (by simp) ?_
          rintro ⟨_, hd, _⟩
          rw [h2'] at hd
          simp at hd
        · refine iff_of_false (by simp) ?_
          rintro (hf | ⟨_, hd, _⟩)
          · exact absurd h1 (not_lt.mpr hf)
          · rw [h2'] at hd
            simp at hd
        · rw [if_neg ?_]
          rintro ⟨_, hd, _⟩
          rw [h2'] at hd
          simp at hd
    · rw [if_neg h1]
      refine ⟨?_, iff_of_true rfl (Or.inl (not_lt.mp h1)), ?_, ?_⟩
      · refine iff_of_false (by simp) ?_
        rintro ⟨hlt, _, _⟩
        exact h1 hlt
      · refine iff_of_false (fun hf => by simpa using hf.2) ?_
        rintro ⟨hlt, _⟩
        exact h1 hlt
      · rw [if_neg ?_]
        rintro ⟨hlt, _, _⟩
        exact h1 hlt

/-- Witness for C1: a perfectly-overlapping detection on one non-difficult
unclaimed ground-truth box is a true positive. -/
theorem claim_C1_witness :
    (matchOne [[⟨0, 0, 10, 10⟩]] [[false]] (1/2) [[false]] 0
      ⟨0, 0, 10, 10⟩).2.1 = true := by
  have hiou : iou (⟨0, 0, 10, 10⟩ : BBox) ⟨0, 0, 10, 10⟩ = 1 := by
    norm_num [iou, bbox_area]
  have harg : argmaxList (([[(⟨0, 0, 10, 10⟩ : BBox)]].getD 0 []).map
      (fun g => iou ⟨0, 0, 10, 10⟩ g)) = some (1, 0) := by
    simp only [List.getD_cons_zero, List.map_cons, List.map_nil, hiou]
    rfl
  have h := (claim_C1_matching_decision [[⟨0, 0, 10, 10⟩]] [[false]] (1/2)
    [[false]] 0 ⟨0, 0, 10, 10⟩).2 1 0 harg
  exact h.1.mpr ⟨by norm_num, rfl, rfl⟩

/-- C2: the IoU used for matching follows the VOC +1 area convention with
clamped intersection dimensions, and the maximum-IoU match resolves to the
first (lowest-index) box attaining the maximum. -/
theorem claim_C2_iou_convention :
    (∀ bb g : BBox, iou bb g =
      (max (min g.x_max bb.x_max - max g.x_min bb.x_min + 1) 0 *
       max (min g.y_max bb.y_max - max g.y_min bb.y_min + 1) 0) /
      ((bb.x_max - bb.x_min + 1) * (bb.y_max - bb.y_min + 1) +
       (g.x_max - g.x_min + 1) * (g.y_max - g.y_min + 1) -
       max (min g.x_max bb.x_max - max g.x_min bb.x_min + 1) 0 *
       max (min g.y_max bb.y_max - max g.y_min bb.y_min + 1) 0)) ∧
    (∀ (l : List ℚ) (m : ℚ) (j : ℕ), argmaxList l = some (m, j) →
      j < l.length ∧ l.getD j 0 = m ∧ (∀ i, i < l.length → l.getD i 0 ≤ m) ∧
      ∀ i, i < j → l.getD i 0 < m) := by
  constructor
  · intro bb g
    rfl
  · intro l m j h
    exact argmaxList_spec l m j h

/-- Witness for C2: on the IoU list `[1/2, 1, 1]` the argmax is the value
`1` at the first index attaining it, index `1`. -/
theorem claim_C2_witness :
    (1 : ℕ) < ([(1 : ℚ)/2, 1, 1]).length ∧
    ([(1 : ℚ)/2, 1, 1]).getD 1 0 = 1 ∧
    (∀ i, i < ([(1 : ℚ)/2, 1, 1]).length → ([(1 : ℚ)/2, 1, 1]).getD i 0 ≤ 1) ∧
    (∀ i, i < 1 → ([(1 : ℚ)/2, 1, 1]).getD i 0 < 1) :=
  claim_C2_iou_convention.2 [(1 : ℚ)/2, 1, 1] 1 1 (by
    show some (argmaxAux ((1 : ℚ)/2) 0 1 [1, 1]) = some (1, 1)
    rw [argmaxAux_cons, if_pos (by norm_num : (1 : ℚ)/2 < 1),
      argmaxAux_cons, if_neg (by norm_num : ¬(1 : ℚ) < 1)]
    rfl)

/-- C3: with `npos = 0` or no detections, the per-class result is a pair of
all-zero arrays sized to the detection count, and the AP computed from them
is `0` under both integration methods. -/
theorem claim_C3_degenerate_class (bboxes : List (List BBox))
    (scores : List (List ℚ)) (gtb : List (List BBox)) (gtd : List (List Bool))
    (min_iou : ℚ) (b : Bool)
    (h : npos gtd = 0 ∨ scores.flatten = []) :
    pred_and_rec_cls bboxes scores gtb gtd min_iou =
      (List.replicate scores.flatten.length 0,
       List.replicate scores.flatten.length 0) ∧
    voc_ap (List.replicate scores.flatten.length 0)
      (List.replicate scores.flatten.length 0) b = 0 := by
  have hcond : npos gtd = 0 ∨ scores.flatten.length = 0 := by
    rcases h with h | h
    · exact Or.inl h
    · exact Or.inr (by rw [h]; rfl)
  constructor
  · unfold pred_and_rec_cls
    rw [if_pos hcond]
  · exact voc_ap_zeros _ b

/-- Witness for C3: one unmatched-class image (a detection with no
ground-truth boxes at all, hence `npos = 0`). -/
theorem claim_C3_witness :
    pred_and_rec_cls [[⟨0, 0, 10, 10⟩]] [[(9 : ℚ)/10]] [[]] [[]] (1/2) =
      (List.replicate ([[(9 : ℚ)/10]].flatten.length) 0,
       List.replicate ([[(9 : ℚ)/10]].flatten.length) 0) ∧
    voc_ap (List.replicate ([[(9 : ℚ)/10]].flatten.length) 0)
      (List.replicate ([[(9 : ℚ)/10]].flatten.length) 0) false = 0 :=
  claim_C3_degenerate_class [[⟨0, 0, 10, 10⟩]] [[(9 : ℚ)/10]] [[]] [[]]
    (1/2) false (Or.inl (by decide))

theorem countP_not_add_countP_id (row : List Bool) :
    row.countP (fun d => !d) + row.countP id = row.length := by
  induction row with
  | nil => simp
  | cons d t ih =>
    rw [List.countP_cons, List.countP_cons, List.length_cons]
    cases d <;> simp <;> omega

theorem npos_plus_difficult (gtd : List (List Bool)) :
    npos gtd + (gtd.map (fun row => row.countP id)).sum =
      (gtd.map List.length).sum := by
  induction gtd with
  | nil => simp [npos]
  | cons row t ih =>
    rw [npos_cons]
    simp only [List.map_cons, List.sum_cons]
    have := countP_not_add_countP_id row
    omega

/-- C4: throughout the matching run started from the all-unclaimed state,
(1) the cumulative true-positive count over any prefix never exceeds `npos`;
(2) the final claimed-state never claims a difficult ground-truth box (and,
with (3), no intermediate state does either, since claims are only added);
(3) every true positive claims a distinct box, so the claimed count equals
the true-positive count; (4) `npos` counts exactly the non-difficult boxes,
i.e. difficult boxes contribute to the total count but not to `npos`. -/
theorem claim_C4_matcher_invariants (bboxes : List (List BBox))
    (scores : List (List ℚ)) (gtb : List (List BBox)) (gtd : List (List Bool))
    (min_iou : ℚ)
    (hlen : gtd.length = gtb.length)
    (hrows : ∀ i, (gtd.getD i []).length = (gtb.getD i []).length) :
    (∀ k, (((runMatch gtb gtd min_iou (initSelec gtb)
        (sortDets (detsOf bboxes scores))).2.1.take k).countP id) ≤ npos gtd) ∧
    (∀ i j, ((runMatch gtb gtd min_iou (initSelec gtb)
        (sortDets (detsOf bboxes scores))).1.getD i []).getD j false = true →
      (gtd.getD i []).getD j false = false) ∧
    (claimedCount (runMatch gtb gtd min_iou (initSelec gtb)
        (sortDets (detsOf bboxes scores))).1 =
      (runMatch gtb gtd min_iou (initSelec gtb)
        (sortDets (detsOf bboxes scores))).2.1.countP id) ∧
    (npos gtd + (gtd.map (fun row => row.countP id)).sum =
      (gtd.map List.length).sum) := by
  have hok := selecOk_init gtb gtd
  have hinv := runMatch_invariant gtb gtd min_iou
    (sortDets (detsOf bboxes scores)) (initSelec gtb) hok
  refine ⟨?_, ?_, ?_, npos_plus_difficult gtd⟩
  · intro k
    have := runMatch_take_le gtb gtd min_iou hlen hrows
      (sortDets (detsOf bboxes scores)) (initSelec gtb) hok k
    rw [claimedCount_init gtb] at this
    omega
  · exact hinv.1.2.2
  · rw [hinv.2, claimedCount_init gtb]
    omega

/-- Witness for C4: one image, one non-difficult ground-truth box, one
perfect detection: the prefix true-positive counts stay at or below
`npos = 1`. -/
theorem claim_C4_witness :
    (((runMatch [[⟨0, 0, 10, 10⟩]] [[false]] (1/2)
        (initSelec [[⟨0, 0, 10, 10⟩]])
        (sortDets (detsOf [[⟨0, 0, 10, 10⟩]] [[(9 : ℚ)/10]]))).2.1.take
          1).countP id) ≤ npos [[false]] :=
  (claim_C4_matcher_invariants [[⟨0, 0, 10, 10⟩]] [[(9 : ℚ)/10]]
    [[⟨0, 0, 10, 10⟩]] [[false]] (1/2) (by decide)
    (fun i => by cases i <;> rfl)).1 1

/-- C5 counterexample: a label outside the int32 range.  `4294967296 =
2^32` wraps to `0` under the `.astype(np.int32)` of line 77, so the scored
label set is `{0}`, not the union `{4294967296}` of the appearing labels:
the input is accepted (returns a result), the label `4294967296` appears in
the prediction collection, yet no scored label equals it.  This refutes the
claim that the scored label set equals the set union of the appearing
labels on every accepted input. -/
theorem claim_C5_counterexample :
    ∃ res, eval_detection_voc [[⟨0, 0, 10, 10⟩]] [[4294967296]]
        [[(1 : ℚ)/2]] [[⟨0, 0, 10, 10⟩]] [[4294967296]] none (1/2) false =
        .ok res ∧
      (∃ row ∈ [[(4294967296 : ℤ)]], (4294967296 : ℤ) ∈ row) ∧
      ¬(∃ c ∈ res.perClass, c.1 = (4294967296 : ℤ)) := by
  have hv : validLabels [[(4294967296 : ℤ)]] [[(4294967296 : ℤ)]] = [0] := by
    decide
  unfold eval_detection_voc
  rw [if_neg (not_not_intro ⟨rfl, rfl, rfl, rfl⟩), if_neg (by decide)]
  refine ⟨_, rfl, ⟨[(4294967296 : ℤ)], by simp, by simp⟩, ?_⟩
  rintro ⟨c, hc, hceq⟩
  simp only [hv, List.map_cons, List.map_nil] at hc
  rcases List.mem_singleton.mp hc with rfl
  simp at hceq

/-- C5 (amended): for every accepted input, the scored label set is exactly
the image under the int32 wraparound (`astype(np.int32)`, line 77) of the
set union of the labels appearing in any prediction or ground-truth
collection, and the returned mAP is the arithmetic mean (sum divided by
count) of the per-label AP values of exactly those labels. -/
theorem claim_C5_labels_and_map (bboxes : List (List BBox))
    (labels : List (List ℤ)) (scores : List (List ℚ))
    (gt_bboxes : List (List BBox)) (gt_labels : List (List ℤ))
    (gt_difficults : Option (List (List Bool))) (min_iou : ℚ) (use07 : Bool)
    (hlen : bboxes.length = labels.length ∧ labels.length = scores.length ∧
      scores.length = gt_bboxes.length ∧ gt_bboxes.length = gt_labels.length)
    (hne : labels ≠ []) :
    ∃ res, eval_detection_voc bboxes labels scores gt_bboxes gt_labels
        gt_difficults min_iou use07 = .ok res ∧
      (∀ l : ℤ, (∃ c ∈ res.perClass, c.1 = l) ↔
        (∃ l₀ : ℤ,
          ((∃ row ∈ labels, l₀ ∈ row) ∨ (∃ row ∈ gt_labels, l₀ ∈ row)) ∧
          l = toInt32 l₀)) ∧
      res.map = ((res.perClass.map (fun c => c.2.ap)).sum) /
        ((res.perClass.length : ℚ)) := by
  unfold eval_detection_voc
  rw [if_neg (not_not_intro hlen),
    if_neg (fun h => hne (List.isEmpty_iff.mp h))]
  refine ⟨_, rfl, ?_, rfl⟩
  intro l
  simp only [List.mem_map]
  constructor
  · rintro ⟨c, ⟨l', hl', rfl⟩, hc⟩
    simp only at hc
    subst hc
    unfold validLabels at hl'
    obtain ⟨l₀, hl₀, rfl⟩ := List.mem_map.mp hl'
    have := List.mem_dedup.mp hl₀
    rcases List.mem_append.mp this with h | h
    · exact ⟨l₀, Or.inl (List.mem_flatten.mp h), rfl⟩
    · exact ⟨l₀, Or.inr (List.mem_flatten.mp h), rfl⟩
  · rintro ⟨l₀, h, rfl⟩
    have hmem : toInt32 l₀ ∈ validLabels labels gt_labels := by
      unfold validLabels
      refine List.mem_map.mpr ⟨l₀, ?_, rfl⟩
      rw [List.mem_dedup, List.mem_append]
      rcases h with h | h
      · exact Or.inl (List.mem_flatten.mpr h)
      · exact Or.inr (List.mem_flatten.mpr h)
    refine ⟨_, ⟨toInt32 l₀, hmem, rfl⟩, rfl⟩

/-- Witness for C5 (amended): a one-image corpus with a single class `0`
(a fixed point of the int32 cast). -/
theorem claim_C5_witness :
    ∃ res, eval_detection_voc [[⟨0, 0, 10, 10⟩]] [[0]] [[(9 : ℚ)/10]]
        [[⟨0, 0, 10, 10⟩]] [[0]] none (1/2) false = .ok res ∧
      (∀ l : ℤ, (∃ c ∈ res.perClass, c.1 = l) ↔
        (∃ l₀ : ℤ,
          ((∃ row ∈ [[(0 : ℤ)]], l₀ ∈ row) ∨ (∃ row ∈ [[(0 : ℤ)]], l₀ ∈ row)) ∧
          l = toInt32 l₀)) ∧
      res.map = ((res.perClass.map (fun c => c.2.ap)).sum) /
        ((res.perClass.length : ℚ)) :=
  claim_C5_labels_and_map [[⟨0, 0, 10, 10⟩]] [[0]] [[(9 : ℚ)/10]]
    [[⟨0, 0, 10, 10⟩]] [[0]] none (1/2) false
    ⟨rfl, rfl, rfl, rfl⟩ (by decide)

/-- C6: the AP computed from any per-class recall/precision pair produced
by the matcher lies in `[0, 1]`, under both integration methods. -/
theorem claim_C6_ap_bounded (bboxes : List (List BBox))
    (scores : List (List ℚ)) (gtb : List (List BBox)) (gtd : List (List Bool))
    (min_iou : ℚ) (b : Bool)
    (hlen : gtd.length = gtb.length)
    (hrows : ∀ i, (gtd.getD i []).length = (gtb.getD i []).length) :
    0 ≤ voc_ap (pred_and_rec_cls bboxes scores gtb gtd min_iou).1
        (pred_and_rec_cls bboxes scores gtb gtd min_iou).2 b ∧
    voc_ap (pred_and_rec_cls bboxes scores gtb gtd min_iou).1
        (pred_and_rec_cls bboxes scores gtb gtd min_iou).2 b ≤ 1 := by
  by_cases hdeg : npos gtd = 0 ∨ scores.flatten.length = 0
  · unfold pred_and_rec_cls
    rw [if_pos hdeg]
    have hz := voc_ap_zeros scores.flatten.length b
    constructor
    · rw [show (List.replicate scores.flatten.length (0 : ℚ),
          List.replicate scores.flatten.length (0 : ℚ)).1 =
          List.replicate scores.flatten.length (0 : ℚ) from rfl]
      rw [show (List.replicate scores.flatten.length (0 : ℚ),
          List.replicate scores.flatten.length (0 : ℚ)).2 =
          List.replicate scores.flatten.length (0 : ℚ) from rfl]
      rw [hz]
    · rw [show (List.replicate scores.flatten.length (0 : ℚ),
          List.replicate scores.flatten.length (0 : ℚ)).1 =
          List.replicate scores.flatten.length (0 : ℚ) from rfl]
      rw [show (List.replicate scores.flatten.length (0 : ℚ),
          List.replicate scores.flatten.length (0 : ℚ)).2 =
          List.replicate scores.flatten.length (0 : ℚ) from rfl]
      rw [hz]
      norm_num
  · unfold pred_and_rec_cls
    rw [if_neg hdeg]
    push_neg at hdeg
    have hruns := runMatch_lengths gtb gtd min_iou
      (sortDets (detsOf bboxes scores)) (initSelec gtb)
    exact voc_ap_bounds
      (recOf gtd (runMatch gtb gtd min_iou (initSelec gtb)
        (sortDets (detsOf bboxes scores))).2.1)
      (precOf (runMatch gtb gtd min_iou (initSelec gtb)
          (sortDets (detsOf bboxes scores))).2.1
        (runMatch gtb gtd min_iou (initSelec gtb)
          (sortDets (detsOf bboxes scores))).2.2) b
      (by rw [recOf_length, precOf_length, hruns.1, hruns.2]; simp)
      (recOf_entries gtb gtd min_iou (sortDets (detsOf bboxes scores))
        hlen hrows hdeg.1)
      (recOf_chain gtd _)
      (precOf_entries _ _)

/-- Witness for C6: the one-image perfect-detection input, envelope method. -/
theorem claim_C6_witness :
    0 ≤ voc_ap (pred_and_rec_cls [[⟨0, 0, 10, 10⟩]] [[(9 : ℚ)/10]]
        [[⟨0, 0, 10, 10⟩]] [[false]] (1/2)).1
        (pred_and_rec_cls [[⟨0, 0, 10, 10⟩]] [[(9 : ℚ)/10]]
        [[⟨0, 0, 10, 10⟩]] [[false]] (1/2)).2 false ∧
    voc_ap (pred_and_rec_cls [[⟨0, 0, 10, 10⟩]] [[(9 : ℚ)/10]]
        [[⟨0, 0, 10, 10⟩]] [[false]] (1/2)).1
        (pred_and_rec_cls [[⟨0, 0, 10, 10⟩]] [[(9 : ℚ)/10]]
        [[⟨0, 0, 10, 10⟩]] [[false]] (1/2)).2 false ≤ 1 :=
  claim_C6_ap_bounded [[⟨0, 0, 10, 10⟩]] [[(9 : ℚ)/10]] [[⟨0, 0, 10, 10⟩]]
    [[false]] (1/2) false (by decide) (fun i => by cases i <;> rfl)

/-- C7: with `use_07_metric = false` the AP is the exact envelope
integration: recall padded with a leading 0 and trailing 1, precision with a
leading 0 and trailing 0, the precision envelope is the right-to-left
running maximum (entry `i` is the maximum over positions `≥ i`,
`suffixMaxAt`), and AP is the sum over the recall-change indices of the
recall increment times the envelope precision at the upper end. -/
theorem claim_C7_envelope (rec prec : List ℚ)
    (hlen : rec.length = prec.length) :
    voc_ap rec prec false =
      ∑ k ∈ Finset.range ((0 :: rec ++ [1] : List ℚ).length - 1),
        (if (0 :: rec ++ [1] : List ℚ).getD (k + 1) 0 ≠
            (0 :: rec ++ [1] : List ℚ).getD k 0
         then ((0 :: rec ++ [1] : List ℚ).getD (k + 1) 0 -
            (0 :: rec ++ [1] : List ℚ).getD k 0) *
            suffixMaxAt (0 :: prec ++ [0]) (k + 1) else 0) := by
  rw [show voc_ap rec prec false = apEnvelope rec prec from rfl]
  exact apEnvelope_eq_spec_sum rec prec hlen

/-- Witness for C7: the single-point curve `recall = [1]`,
`precision = [1]`. -/
theorem claim_C7_witness :
    voc_ap [(1 : ℚ)] [(1 : ℚ)] false =
      ∑ k ∈ Finset.range ((0 :: [(1 : ℚ)] ++ [1] : List ℚ).length - 1),
        (if (0 :: [(1 : ℚ)] ++ [1] : List ℚ).getD (k + 1) 0 ≠
            (0 :: [(1 : ℚ)] ++ [1] : List ℚ).getD k 0
         then ((0 :: [(1 : ℚ)] ++ [1] : List ℚ).getD (k + 1) 0 -
            (0 :: [(1 : ℚ)] ++ [1] : List ℚ).getD k 0) *
            suffixMaxAt (0 :: [(1 : ℚ)] ++ [0]) (k + 1) else 0) :=
  claim_C7_envelope [(1 : ℚ)] [(1 : ℚ)] rfl

/-- C8: with `use_07_metric = true` the AP is the mean of eleven values,
one per threshold `t = k/10` for `k = 0..10` exactly (the exact-arithmetic
value of `np.arange(0., 1.1, 0.1)`), each value the maximum `precision[i]`
over the indices with `recall[i] ≥ t`, or `0` when no index qualifies. -/
theorem claim_C8_eleven_point (rec prec : List ℚ)
    (hlen : rec.length = prec.length) :
    voc_ap rec prec true =
      (∑ k ∈ Finset.range 11, idxMaxPrec rec prec ((k : ℚ) / 10)) / 11 :=
  ap07_eq_spec_sum rec prec hlen

/-- Witness for C8: the single-point curve `recall = [1]`,
`precision = [1]`. -/
theorem claim_C8_witness :
    voc_ap [(1 : ℚ)] [(1 : ℚ)] true =
      (∑ k ∈ Finset.range 11, idxMaxPrec [(1 : ℚ)] [(1 : ℚ)] ((k : ℚ) / 10)) / 11 :=
  claim_C8_eleven_point [(1 : ℚ)] [(1 : ℚ)] rfl

/-- C10 counterexample: the empty corpus.  All five top-level lists have
equal length (zero), yet `eval_detection_voc` raises: `np.concatenate([])`
on line 76 fails with `ValueError: need at least one array to concatenate`.
This refutes the claim that an error is raised only on a length mismatch and
that every equal-length input completes. -/
theorem claim_C10_counterexample :
    (([] : List (List BBox)).length = ([] : List (List ℤ)).length ∧
     ([] : List (List ℤ)).length = ([] : List (List ℚ)).length ∧
     ([] : List (List ℚ)).length = ([] : List (List BBox)).length ∧
     ([] : List (List BBox)).length = ([] : List (List ℤ)).length) ∧
    eval_detection_voc [] [] [] [] [] none (1/2) false =
      .error .emptyConcat :=
  ⟨⟨rfl, rfl, rfl, rfl⟩, rfl⟩

/-- C10 (amended): `eval_detection_voc` raises if and only if the five
corpus-level lists do not all have equal length or the corpus has zero
images; the length mismatch is detected first, before any computation; and
every equal-length input with at least one image completes and returns a
result. -/
theorem claim_C10_error_behaviour (bboxes : List (List BBox))
    (labels : List (List ℤ)) (scores : List (List ℚ))
    (gt_bboxes : List (List BBox)) (gt_labels : List (List ℤ))
    (gt_difficults : Option (List (List Bool))) (min_iou : ℚ) (use07 : Bool) :
    ((¬(bboxes.length = labels.length ∧ labels.length = scores.length ∧
        scores.length = gt_bboxes.length ∧ gt_bboxes.length = gt_labels.length)) →
      eval_detection_voc bboxes labels scores gt_bboxes gt_labels
        gt_difficults min_iou use07 = .error .lengthMismatch) ∧
    ((bboxes.length = labels.length ∧ labels.length = scores.length ∧
        scores.length = gt_bboxes.length ∧ gt_bboxes.length = gt_labels.length) →
      labels = [] →
      eval_detection_voc bboxes labels scores gt_bboxes gt_labels
        gt_difficults min_iou use07 = .error .emptyConcat) ∧
    ((bboxes.length = labels.length ∧ labels.length = scores.length ∧
        scores.length = gt_bboxes.length ∧ gt_bboxes.length = gt_labels.length) →
      labels ≠ [] →
      ∃ res, eval_detection_voc bboxes labels scores gt_bboxes gt_labels
        gt_difficults min_iou use07 = .ok res) := by
  refine ⟨?_, ?_, ?_⟩
  · intro h
    unfold eval_detection_voc
    rw [if_pos h]
  · intro h hempty
    unfold eval_detection_voc
    rw [if_neg (not_not_intro h),
      if_pos (by rw [hempty]; rfl)]
  · intro h hne
    unfold eval_detection_voc
    rw [if_neg (not_not_intro h),
      if_neg (fun hh => hne (List.isEmpty_iff.mp hh))]
    exact ⟨_, rfl⟩

/-- Witness for C10 (amended): a one-image equal-length corpus completes. -/
theorem claim_C10_witness :
    ∃ res, eval_detection_voc [[⟨0, 0, 10, 10⟩]] [[1]] [[(9 : ℚ)/10]]
        [[⟨0, 0, 10, 10⟩]] [[1]] none (1/2) true = .ok res :=
  (claim_C10_error_behaviour [[⟨0, 0, 10, 10⟩]] [[1]] [[(9 : ℚ)/10]]
    [[⟨0, 0, 10, 10⟩]] [[1]] none (1/2) true).2.2
    ⟨rfl, rfl, rfl, rfl⟩ (by decide)

end VocEval
